import Mathlib

/-!
Verification of the PaperWeight progression core.

Shallow embedding of the pure computation engines:
  modules/logic/streaks_engine.js    (computeStreakStats, computeXpMultiplier)
  modules/logic/xp_engine.js         (applyXpForCompletedCard, unlockCompletedSkills)
  modules/logic/card_selector.js     (selectDailyCardIds, balanced-mixer version)
  modules/logic/skill_overview_engine.js (computeInfiniteLevel)
  modules/logic/timeline_engine.js   (getCurrentPhase)
  modules/logic/reflection_engine.js (computeReflectionStats and helpers)

Modelling conventions:
  - ISO date strings "YYYY-MM-DD" are modelled as integer day indices (Day).
    The JS code parses such strings to local-midnight Dates and compares,
    adds and subtracts whole days; lexicographic string order on the fixed
    zero-padded format agrees with chronological order, so the integer model
    is order- and arithmetic-faithful.
  - JS objects used as string-keyed maps are modelled as association lists
    in insertion order (JS object key order for string keys); updating an
    existing key keeps its position, a new key is appended.
  - The wall clock (new Date() via getTodayIsoDate) is modelled as an
    explicit parameter named today threaded to the functions that call it.
  - The Math.random number provider is modelled by injected draw parameters
    (a natural number per draw, reduced modulo the relevant length), as
    sanctioned by the design document which requires the random provider to
    be injectable.
  - JS numbers that carry ratings may be NaN or non-numbers; where the code
    branches on typeof, values are modelled by JsVal (a rational, NaN, or a
    non-number). Elsewhere numeric fields are modelled as rationals.
-/

namespace PaperWeight

/-- JS Math.round: round half toward positive infinity. -/
def jsRound (q : ℚ) : ℤ := ⌊q + 1/2⌋

/-- First-match lookup in an association list (JS object property read). -/
def lookupKey {α β : Type} [DecidableEq α] : List (α × β) → α → Option β
  | [], _ => none
  | p :: rest, a => if p.1 = a then some p.2 else lookupKey rest a

/-- JS object property write: replace the value of an existing key in place,
or append a fresh key at the end (string-keyed JS objects keep insertion
order). -/
def setKey {α β : Type} [DecidableEq α] (l : List (α × β)) (a : α) (b : β) :
    List (α × β) :=
  if a ∈ l.map Prod.fst then
    l.map (fun p => if p.1 = a then (a, b) else p)
  else l ++ [(a, b)]

/-! ## Streak engine (modules/logic/streaks_engine.js) -/

/-- Output shape of computeStreakStats. -/
structure StreakStats where
  currentStreak : ℕ
  bestStreak : ℕ
  lastActiveDate : Option Int
deriving DecidableEq

/-- The dates whose completed-card list is non-empty, in key order
(Object.keys(completed).filter of the source). -/
def activeDates (byDate : List (Int × List String)) : List Int :=
  (byDate.filter (fun p => !p.2.isEmpty)).map Prod.fst

/-- The backward walk of the current-streak loop: while the cursor date is
in the active set, count it and step one day back. -/
def streakBack (s : Finset Int) (d : Int) : ℕ :=
  if h : d ∈ s then streakBack s (d - 1) + 1 else 0
termination_by (s.filter (fun x => x ≤ d)).card
decreasing_by
  apply Finset.card_lt_card
  rw [Finset.ssubset_iff_of_subset]
  · refine ⟨d, Finset.mem_filter.mpr ⟨h, le_refl d⟩, fun hc => ?_⟩
    have h2 : d ≤ d - 1 := (Finset.mem_filter.mp hc).2
    omega
  · intro x hx
    have hx2 : x ∈ s ∧ x ≤ d - 1 := Finset.mem_filter.mp hx
    refine Finset.mem_filter.mpr ⟨hx2.1, ?_⟩
    omega

/-- The forward walk of the best-streak scan: while the cursor date is in
the active set, count it and step one day forward. -/
def runFwd (s : Finset Int) (d : Int) : ℕ :=
  if h : d ∈ s then runFwd s (d + 1) + 1 else 0
termination_by (s.filter (fun x => d ≤ x)).card
decreasing_by
  apply Finset.card_lt_card
  rw [Finset.ssubset_iff_of_subset]
  · refine ⟨d, Finset.mem_filter.mpr ⟨h, le_refl d⟩, fun hc => ?_⟩
    have h2 : d + 1 ≤ d := (Finset.mem_filter.mp hc).2
    omega
  · intro x hx
    have hx2 : x ∈ s ∧ d + 1 ≤ x := Finset.mem_filter.mp hx
    refine Finset.mem_filter.mpr ⟨hx2.1, ?_⟩
    omega

/-- The best-streak scan: for every active date that starts a run (its
predecessor day is inactive), measure the forward run and keep the
maximum. -/
def bestStreakFold (s : Finset Int) (dates : List Int) : ℕ :=
  dates.foldl (fun best d => if (d - 1) ∈ s then best else max best (runFwd s d)) 0

/-- computeStreakStats of streaks_engine.js. The source reads the wall
clock via getTodayIsoDate; the wall-clock date is the explicit first
parameter here. -/
def computeStreakStats (today : Int) (byDate : List (Int × List String)) :
    StreakStats :=
  let actives := activeDates byDate
  if actives.isEmpty then ⟨0, 0, none⟩
  else
    let s := actives.toFinset
    let sorted := actives.insertionSort (fun a b => a ≤ b)
    ⟨streakBack s today, bestStreakFold s sorted, sorted.getLast?⟩

/-- computeXpMultiplier of streaks_engine.js: step function from the
current streak to the XP multiplier and its label. -/
def computeXpMultiplier (currentStreak : ℕ) : ℚ × String :=
  if currentStreak ≥ 30 then (3/2, "x1.5 (30+ day streak)")
  else if currentStreak ≥ 14 then (13/10, "x1.3 (14+ day streak)")
  else if currentStreak ≥ 7 then (6/5, "x1.2 (7+ day streak)")
  else if currentStreak ≥ 3 then (11/10, "x1.1 (3+ day streak)")
  else (1, "x1.0 (no streak bonus)")

/-! ## Data model -/

/-- A mission card. The domain field is an Option: none models a missing or
empty (falsy) domain string, which the XP engine replaces by "misc". -/
structure Card where
  id : String
  domain : Option String
  xp_reward : ℚ
  tags : List String
  disabled : Bool
deriving DecidableEq

/-- A skill-tree node (fields the logic reads). -/
structure SkillNode where
  id : String
  prerequisites : List String
  domains : List String
  xp_required : ℚ
deriving DecidableEq

/-- The last-gain audit record written by applyXpForCompletedCard. -/
structure LastXpGain where
  date : Int
  card_id : String
  domain : String
  base_xp : ℚ
  multiplier : ℚ
  gained_xp : ℤ
  current_streak : ℕ
deriving DecidableEq

/-- The user settings fields the selection logic reads. -/
structure Settings where
  daily_card_count : Option ℤ
deriving DecidableEq

/-- The user aggregate (fields the progression core reads and writes). -/
structure User where
  xp_by_domain : List (String × ℚ)
  completed_cards_by_date : List (Int × List String)
  completed_skill_nodes : List String
  last_xp_gain : Option LastXpGain
  settings : Settings
deriving DecidableEq

/-! ## XP engine (modules/logic/xp_engine.js) -/

/-- The completion-marking step of applyXpForCompletedCard: read the list
for the date (empty if absent), and only when the card id is not already in
it, append the id and write the list back. -/
def markCompleted (byDate : List (Int × List String)) (date : Int)
    (cardId : String) : List (Int × List String) :=
  let todaysList := (lookupKey byDate date).getD []
  if cardId ∈ todaysList then byDate
  else setKey byDate date (todaysList ++ [cardId])

/-- The XP-crediting step of applyXpForCompletedCard: create the domain
bucket at zero when absent, then add the gained XP. -/
def bumpXp (xp : List (String × ℚ)) (domain : String) (gained : ℚ) :
    List (String × ℚ) :=
  match lookupKey xp domain with
  | some v => setKey xp domain (v + gained)
  | none => setKey (setKey xp domain 0) domain (0 + gained)

/-- XP available to a node: the sum over its domain list, or the sum over
all domains when the list is missing or empty. -/
def nodeTotalXp (xp : List (String × ℚ)) (node : SkillNode) : ℚ :=
  if node.domains.isEmpty then (xp.map Prod.snd).sum
  else (node.domains.map (fun d => (lookupKey xp d).getD 0)).sum

/-- unlockCompletedSkills of xp_engine.js: one pass over the tree; a node
not yet completed is added to the completed set when all its prerequisites
are in the set and its available XP reaches its requirement. The insertion
order of the JS Set (existing ids first, new ids in unlock order) is the
list order. -/
def unlockCompletedSkills (xp : List (String × ℚ)) (completed : List String)
    (skillTree : List SkillNode) : List String :=
  skillTree.foldl
    (fun acc node =>
      if node.id ∈ acc then acc
      else if (∀ p ∈ node.prerequisites, p ∈ acc) ∧
          node.xp_required ≤ nodeTotalXp xp node then acc ++ [node.id]
      else acc)
    completed

/-- applyXpForCompletedCard of xp_engine.js. The wall-clock date (used when
options.date is absent, and always used by the computeStreakStats call) is
the explicit today parameter; options is the optional date field of the
options record. -/
def applyXpForCompletedCard (today : Int) (user : Option User)
    (card : Option Card) (skillTree : List SkillNode)
    (options : Option Int) : Option User :=
  match user, card with
  | some u, some c =>
    let date := options.getD today
    let byDate := markCompleted u.completed_cards_by_date date c.id
    let streakStats := computeStreakStats today byDate
    let multiplier := (computeXpMultiplier streakStats.currentStreak).1
    let baseXp := c.xp_reward
    let gainedXp := jsRound (baseXp * multiplier)
    let domain := c.domain.getD "misc"
    let xp := bumpXp u.xp_by_domain domain (gainedXp : ℚ)
    let lastGain : LastXpGain :=
      ⟨date, c.id, domain, baseXp, multiplier, gainedXp, streakStats.currentStreak⟩
    let completed := unlockCompletedSkills xp u.completed_skill_nodes skillTree
    some { xp_by_domain := xp
           completed_cards_by_date := byDate
           completed_skill_nodes := completed
           last_xp_gain := some lastGain
           settings := u.settings }
  | _, _ => user

/-! ## Mission selector (modules/logic/card_selector.js, balanced mixer) -/

/-- Character-wise lower-casing, modelling String.prototype.toLowerCase
(adequate for the ASCII tag names the selector compares). -/
def jsToLower (s : String) : String :=
  String.mk (s.data.map Char.toLower)

/-- includesTag of card_selector.js: case-insensitive tag membership. -/
def includesTag (c : Card) (tag : String) : Bool :=
  (c.tags.map jsToLower).contains (jsToLower tag)

/-- One swap step of the Fisher-Yates shuffle: exchange positions i and j
when both are in bounds. -/
def listSwap (l : List Card) (i j : ℕ) : List Card :=
  match l.get? i, l.get? j with
  | some a, some b => (l.set i b).set j a
  | _, _ => l

/-- The Fisher-Yates loop of shuffle: for i from the top index down to 1,
swap position i with a random position j in [0, i]. The random draw for
step i is r i, reduced modulo i + 1 as Math.floor(Math.random() * (i + 1))
would produce. -/
def shuffleGo (r : ℕ → ℕ) : ℕ → List Card → List Card
  | 0, l => l
  | i + 1, l => shuffleGo r i (listSwap l (i + 1) (r (i + 1) % (i + 2)))

/-- shuffle of card_selector.js, with the random draws injected as r. -/
def shuffle (r : ℕ → ℕ) (l : List Card) : List Card :=
  shuffleGo r (l.length - 1) l

/-- pickOneFrom of card_selector.js: from the pool entries not already
chosen, append one at a random index to the chosen list; a no-op when no
candidate remains. The random draw is k, reduced modulo the number of
candidates as the source floor(random * length) index. -/
def pickOneFrom (k : ℕ) (pool chosen : List Card) : List Card :=
  let available := pool.filter (fun c => !(chosen.contains c))
  if h : available.length = 0 then chosen
  else chosen ++ [available.get ⟨k % available.length, Nat.mod_lt _ (Nat.pos_of_ne_zero h)⟩]

/-- The resolved daily mission count: the options override, else the user
setting, else 3; then Number(x) || 3 turns 0 into 3, and Math.max with 1
applies the floor. -/
def resolvedDailyCount (user : Option User) (dailyCountOption : Option ℤ) : ℤ :=
  let desired := (dailyCountOption.or (user.bind (fun u => u.settings.daily_card_count))).getD 3
  max 1 (if desired = 0 then 3 else desired)

/-- selectDailyCardIds of card_selector.js (the balanced-mixer version):
filter out disabled cards, try to reserve one osint-tagged, one academic
and one physical card, then fill the remaining slots from a shuffle of the
unpicked remainder of the pool. Random draws are injected: k1, k2 and k3
for the three bucket picks, r for the shuffle. -/
def selectDailyCardIds (k1 k2 k3 : ℕ) (r : ℕ → ℕ) (user : Option User)
    (cards : List Card) (dailyCountOption : Option ℤ) : List String :=
  if cards.isEmpty then []
  else
    let dailyCount := resolvedDailyCount user dailyCountOption
    let pool := cards.filter (fun c => !c.disabled)
    if pool.isEmpty then []
    else
      let osintCards := pool.filter (fun c => includesTag c "osint")
      let academicCards := pool.filter (fun c => c.domain = some "academic")
      let physicalCards := pool.filter (fun c => c.domain = some "physical")
      let chosen1 := pickOneFrom k1 osintCards []
      let chosen2 := pickOneFrom k2 academicCards chosen1
      let chosen3 := pickOneFrom k3 physicalCards chosen2
      let remainingSlots := (dailyCount - chosen3.length).toNat
      let chosen4 :=
        if 0 < remainingSlots then
          let remainingPool := shuffle r (pool.filter (fun c => !(chosen3.contains c)))
          chosen3 ++ remainingPool.take (min remainingSlots remainingPool.length)
        else chosen3
      chosen4.map (fun c => c.id)

/-! ## Skill overview engine (modules/logic/skill_overview_engine.js) -/

/-- The level-consuming loop of computeInfiniteLevel: while the remaining
XP covers the requirement and the level cap is not reached, consume the
requirement, gain a level, and grow the requirement by the rounded 20
percent factor. The fuel argument is the number of levels still allowed,
starting at the cap of 50. Returns (levels gained, remaining, required). -/
def levelLoop : ℕ → ℚ → ℚ → ℕ × ℚ × ℚ
  | 0, remaining, required => (0, remaining, required)
  | fuel + 1, remaining, required =>
    if required ≤ remaining then
      let rec1 := levelLoop fuel (remaining - required) ((jsRound (required * (6/5)) : ℤ) : ℚ)
      (rec1.1 + 1, rec1.2.1, rec1.2.2)
    else (0, remaining, required)

/-- computeInfiniteLevel of skill_overview_engine.js: growth factor 1.2,
level cap 50, final progress remaining/required clamped to [0, 1] and 0
when the requirement is not positive. Returns (level, progress, requiredXp). -/
def computeInfiniteLevel (totalXp baseRequired : ℚ) : ℕ × ℚ × ℚ :=
  let remaining0 := max 0 totalXp
  let res := levelLoop 50 remaining0 baseRequired
  let level := res.1
  let remaining := res.2.1
  let required := res.2.2
  let progress := if 0 < required then max 0 (min 1 (remaining / required)) else 0
  (level, progress, required)

/-! ## Timeline engine (modules/logic/timeline_engine.js) -/

/-- A roadmap phase (fields the lookup reads). -/
structure Phase where
  id : String
  start_date : Int
  end_date : Int
deriving DecidableEq

/-- The defensive sort of getCurrentPhase: a stable sort by start date
(JS Array.prototype.sort is stable; the stable sort by a key is unique, so
insertion sort is an exact model of it). -/
def sortPhases (phases : List Phase) : List Phase :=
  phases.insertionSort (fun a b => a.start_date ≤ b.start_date)

/-- The scanning loop of getCurrentPhase: break on the first phase whose
inclusive range contains the target; remember any phase already finished
before the target as the provisional fallback. -/
def findPhase (target : Int) (current : Option Phase) : List Phase → Option Phase
  | [] => current
  | p :: rest =>
    if p.start_date ≤ target ∧ target ≤ p.end_date then some p
    else if p.end_date < target then findPhase target (some p) rest
    else findPhase target current rest

/-- getCurrentPhase of timeline_engine.js, with the resolved target date
(options.date, or the wall-clock date when absent) as the parameter. -/
def getCurrentPhase (phases : List Phase) (targetDate : Int) : Option Phase :=
  if phases.isEmpty then none
  else findPhase targetDate none (sortPhases phases)

/-! ## Reflection engine (modules/logic/reflection_engine.js) -/

/-- A JS number slot as the reflection engine sees it: a real number, NaN,
or a value that is not a number at all (string, null, undefined, missing). -/
inductive JsVal where
  | num (q : ℚ)
  | nan
  | other
deriving DecidableEq

/-- JS addition of number slots: NaN absorbs (the accumulator is always a
number or NaN, never a non-number). -/
def jsAdd : JsVal → JsVal → JsVal
  | .num a, .num b => .num (a + b)
  | _, _ => .nan

/-- The typeof-guarded coercion of the source reduce step: a value whose
typeof is number (including NaN) passes through, anything else becomes 0. -/
def coerceNum : JsVal → JsVal
  | .num q => .num q
  | .nan => .nan
  | .other => .num 0

/-- JS division of a number slot by a positive count. -/
def jsDivNat : JsVal → ℕ → JsVal
  | .num q, n => .num (q / n)
  | _, _ => .nan

/-- JS strict less-than on number slots: any comparison with NaN is false. -/
def jsLt : JsVal → JsVal → Bool
  | .num a, .num b => decide (a < b)
  | _, _ => false

/-- JS subtraction of number slots. -/
def jsSub : JsVal → JsVal → JsVal
  | .num a, .num b => .num (a - b)
  | _, _ => .nan

/-- A reflection entry (fields the engine reads). -/
structure ReflectionEntry where
  id : String
  date : Int
  consistency : JsVal
deriving DecidableEq

/-- isDateInRange of reflection_engine.js: inclusive between the optional
bounds. -/
def isDateInRange (d : Int) (fromDate toDate : Option Int) : Bool :=
  (match fromDate with | some f => decide (f ≤ d) | none => true) &&
  (match toDate with | some t => decide (d ≤ t) | none => true)

/-- computeAverageConsistency of reflection_engine.js: 0 for an empty
list, else the sum of the typeof-coerced consistency values divided by the
count. -/
def computeAverageConsistency (reflections : List ReflectionEntry) : JsVal :=
  if reflections.isEmpty then .num 0
  else
    let sum := reflections.foldl (fun acc r => jsAdd acc (coerceNum r.consistency)) (.num 0)
    jsDivNat sum reflections.length

/-- The four trend classifications. -/
inductive Trend where
  | improving
  | declining
  | stable
  | insufficient_data
deriving DecidableEq

/-- The in-range reflections in chronological order: the filter and stable
sort performed at the top of computeConsistencyTrend (JS Array sort is
stable, and a stable sort by a key is unique, so insertion sort models it
exactly). -/
def sortedInRange (reflections : List ReflectionEntry)
    (fromDate toDate : Option Int) : List ReflectionEntry :=
  (reflections.filter
      (fun r => isDateInRange r.date fromDate toDate)).insertionSort
      (fun a b => a.date ≤ b.date)

/-- computeConsistencyTrend of reflection_engine.js: filter to the range,
sort chronologically (stable), require at least 4 entries, split at
floor(n / 2) into older and newer, and compare the half averages against
the threshold of 5 points. -/
def computeConsistencyTrend (reflections : List ReflectionEntry)
    (fromDate toDate : Option Int) : Trend :=
  let inRange := sortedInRange reflections fromDate toDate
  if inRange.length < 4 then .insufficient_data
  else
    let mid := inRange.length / 2
    let older := inRange.take mid
    let newer := inRange.drop mid
    let avgOld := computeAverageConsistency older
    let avgNew := computeAverageConsistency newer
    let delta := jsSub avgNew avgOld
    if jsLt (.num 5) delta then .improving
    else if jsLt delta (.num (-5)) then .declining
    else .stable

/-- computeActivityStats of reflection_engine.js: the range defaults to the
span of the activity log; days with a non-empty completed list inside the
range are counted against the inclusive day span. Returns
(activityDays, totalDays, activityRatio). -/
def computeActivityStats (byDate : List (Int × List String))
    (fromDate toDate : Option Int) : ℕ × ℕ × ℚ :=
  let allDates := byDate.map Prod.fst
  if allDates.isEmpty then (0, 0, 0)
  else
    let sortedDates := allDates.insertionSort (fun a b => a ≤ b)
    let rangeStart := fromDate.getD (sortedDates.headI)
    let rangeEnd := toDate.getD (sortedDates.getLastI)
    let activityDays := (byDate.filter (fun p =>
        decide (rangeStart ≤ p.1) && decide (p.1 ≤ rangeEnd) && !p.2.isEmpty)).length
    let totalDays := if rangeEnd < rangeStart then 0 else (rangeEnd - rangeStart + 1).toNat
    let activityRatio := if 0 < totalDays then (activityDays : ℚ) / totalDays else 0
    (activityDays, totalDays, activityRatio)

/-- The three drift-risk classifications. -/
inductive DriftRisk where
  | low
  | medium
  | high
deriving DecidableEq

/-- computeDriftRisk of reflection_engine.js: priority rules over the
average consistency, activity ratio and trend. -/
def computeDriftRisk (avgConsistency : JsVal) (activityRatio : ℚ)
    (consistencyTrend : Trend) : DriftRisk :=
  if consistencyTrend = .declining then
    if activityRatio < 2/5 ∨ jsLt avgConsistency (.num 60) then .high else .medium
  else if activityRatio < 3/10 ∧ jsLt avgConsistency (.num 50) then .high
  else if 3/5 < activityRatio ∧ jsLt (.num 70) avgConsistency ∧
      (consistencyTrend = .improving ∨ consistencyTrend = .stable) then .low
  else .medium

/-- Output shape of computeReflectionStats. -/
structure ReflectionStats where
  avgConsistency : JsVal
  activityDays : ℕ
  totalDays : ℕ
  activityRatio : ℚ
  consistencyTrend : Trend
  driftRisk : DriftRisk
deriving DecidableEq

/-- computeReflectionStats of reflection_engine.js. The user argument is
reduced to its completed_cards_by_date log, the only field read. -/
def computeReflectionStats (byDate : List (Int × List String))
    (reflections : List ReflectionEntry) (fromDate toDate : Option Int) :
    ReflectionStats :=
  let filteredReflections := reflections.filter
      (fun r => isDateInRange r.date fromDate toDate)
  let avgConsistency := computeAverageConsistency filteredReflections
  let act := computeActivityStats byDate fromDate toDate
  let consistencyTrend := computeConsistencyTrend reflections fromDate toDate
  let driftRisk := computeDriftRisk avgConsistency act.2.2 consistencyTrend
  { avgConsistency := avgConsistency
    activityDays := act.1
    totalDays := act.2.1
    activityRatio := act.2.2
    consistencyTrend := consistencyTrend
    driftRisk := driftRisk }

/-- The numeric content of a JS number slot (0 for NaN or a non-number);
used to state average bounds. -/
def consPart : JsVal → ℚ
  | .num q => q
  | _ => 0

/-- The rational mean of the coerced consistency values of a list (0 for
the empty list). -/
def meanQ (l : List ReflectionEntry) : ℚ :=
  ((l.map (fun r => consPart r.consistency)).sum) / l.length

/-- Modelled from the spec: the consistency-trend computation as the claim
words it, with the extra entry of an odd count going to the OLDER (lower)
half, that is, a split index of ceiling(n / 2) instead of the floor the
code uses. Defined only to exhibit where the code differs from the claim. -/
def claimsTrend (reflections : List ReflectionEntry)
    (fromDate toDate : Option Int) : Trend :=
  let inRange := sortedInRange reflections fromDate toDate
  if inRange.length < 4 then .insufficient_data
  else
    let mid := (inRange.length + 1) / 2
    let older := inRange.take mid
    let newer := inRange.drop mid
    let avgOld := computeAverageConsistency older
    let avgNew := computeAverageConsistency newer
    let delta := jsSub avgNew avgOld
    if jsLt (.num 5) delta then .improving
    else if jsLt delta (.num (-5)) then .declining
    else .stable

/-! ## Theorems -/

/-- A fold whose step only appends to the accumulator list extends it. -/
theorem foldl_extends {α β : Type} (f : List α → β → List α)
    (hf : ∀ c n, ∃ l, f c n = c ++ l) :
    ∀ (t : List β) (c : List α), ∃ l, t.foldl f c = c ++ l := by
  intro t
  induction t with
  | nil => intro c; exact ⟨[], by simp⟩
  | cons n t ih =>
    intro c
    obtain ⟨l1, h1⟩ := hf c n
    obtain ⟨l2, h2⟩ := ih (f c n)
    exact ⟨l1 ++ l2, by rw [List.foldl_cons, h2, h1, List.append_assoc]⟩

/-- The unlock pass only appends fresh node ids after the existing list. -/
theorem unlockCompletedSkills_extends (xp : List (String × ℚ))
    (skillTree : List SkillNode) (completed : List String) :
    ∃ l, unlockCompletedSkills xp completed skillTree = completed ++ l := by
  refine foldl_extends _ (fun c n => ?_) skillTree completed
  by_cases h1 : n.id ∈ c
  · exact ⟨[], by simp only [if_pos h1, List.append_nil]⟩
  · by_cases h2 : (∀ p ∈ n.prerequisites, p ∈ c) ∧ n.xp_required ≤ nodeTotalXp xp n
    · exact ⟨[n.id], by simp only [if_neg h1, if_pos h2]⟩
    · exact ⟨[], by simp only [if_neg h1, if_neg h2, List.append_nil]⟩

/-- C3: one pass of the unlock evaluation run at the end of
applyXpForCompletedCard only ever adds node ids to the completed set: every
node id completed before the pass is still completed afterwards, for any
XP state, any completed set and any ordering of the skill tree. -/
theorem claim_C3 (xp : List (String × ℚ)) (completed : List String)
    (skillTree : List SkillNode) (nodeId : String) (h : nodeId ∈ completed) :
    nodeId ∈ unlockCompletedSkills xp completed skillTree := by
  obtain ⟨l, hl⟩ := unlockCompletedSkills_extends xp skillTree completed
  rw [hl]
  exact List.mem_append_left l h

/-- Witness for C3 at a concrete input. -/
theorem claim_C3_witness :
    "a" ∈ unlockCompletedSkills [] ["a"]
      [⟨"b", [], [], 0⟩] :=
  claim_C3 [] ["a"] [⟨"b", [], [], 0⟩] "a" (by simp)

/-- C10: applyXpForCompletedCard returns its user argument unchanged when
the user or the card argument is null or undefined: no completion is
recorded, no XP is added, no skill node is unlocked. -/
theorem claim_C10 (today : Int) (user : Option User) (card : Option Card)
    (skillTree : List SkillNode) (options : Option Int)
    (h : user = none ∨ card = none) :
    applyXpForCompletedCard today user card skillTree options = user := by
  rcases h with h | h
  · subst h; cases card <;> rfl
  · subst h; cases user <;> rfl

/-- Witness for C10 at a concrete input. -/
theorem claim_C10_witness :
    applyXpForCompletedCard 0 none (some ⟨"c1", some "focus", 10, [], false⟩)
      [] none = none :=
  claim_C10 0 none (some ⟨"c1", some "focus", 10, [], false⟩) [] none (Or.inl rfl)

/-- Unfolding of the level loop when the requirement is affordable. -/
theorem levelLoop_succ_pos (fuel : ℕ) (remaining required : ℚ)
    (h : required ≤ remaining) :
    levelLoop (fuel + 1) remaining required =
      ((levelLoop fuel (remaining - required)
          ((jsRound (required * (6/5)) : ℤ) : ℚ)).1 + 1,
        (levelLoop fuel (remaining - required)
          ((jsRound (required * (6/5)) : ℤ) : ℚ)).2) := by
  simp only [levelLoop, if_pos h]

/-- Unfolding of the level loop when the requirement is not affordable. -/
theorem levelLoop_succ_neg (fuel : ℕ) (remaining required : ℚ)
    (h : ¬ required ≤ remaining) :
    levelLoop (fuel + 1) remaining required = (0, remaining, required) := by
  simp only [levelLoop, if_neg h]

/-- Gaining a level never happens more often than the remaining fuel. -/
theorem levelLoop_fst_le (fuel : ℕ) :
    ∀ remaining required : ℚ, (levelLoop fuel remaining required).1 ≤ fuel := by
  induction fuel with
  | zero => intro remaining required; simp [levelLoop]
  | succ f ih =>
    intro remaining required
    by_cases h : required ≤ remaining
    · rw [levelLoop_succ_pos f remaining required h]
      exact Nat.succ_le_succ (ih _ _)
    · rw [levelLoop_succ_neg f remaining required h]
      exact Nat.zero_le _

/-- Starting from a requirement of at least 100, the requirement stays at
least 100 through the level loop. -/
theorem levelLoop_required_ge (fuel : ℕ) :
    ∀ remaining required : ℚ, 100 ≤ required →
      (100 : ℚ) ≤ (levelLoop fuel remaining required).2.2 := by
  induction fuel with
  | zero => intro remaining required h; simpa [levelLoop] using h
  | succ f ih =>
    intro remaining required h
    by_cases hc : required ≤ remaining
    · rw [levelLoop_succ_pos f remaining required hc]
      refine ih _ _ ?_
      have h1 : (120 : ℚ) ≤ required * (6/5) := by linarith
      have h2 : (120 : ℤ) ≤ jsRound (required * (6/5)) := by
        rw [jsRound, Int.le_floor]
        push_cast
        linarith
      have h3 : (120 : ℚ) ≤ ((jsRound (required * (6/5)) : ℤ) : ℚ) := by
        exact_mod_cast h2
      linarith
    · rw [levelLoop_succ_neg f remaining required hc]
      exact h

/-- C7: with a base requirement of 100 the infinite-leveling computation
maps total XP 0 to level 0 with progress 0, XP 100 to level 1 with the
requirement grown to 120, and XP 250 to level 2 with 30 XP remaining of a
144 requirement; and for every XP amount the loop terminates with level at
most the cap of 50 and a final progress equal to remaining over required
clamped to the unit interval (the requirement stays positive). -/
theorem claim_C7 :
    computeInfiniteLevel 0 100 = (0, 0, 100) ∧
    computeInfiniteLevel 100 100 = (1, 0, 120) ∧
    computeInfiniteLevel 250 100 = (2, 30/144, 144) ∧
    ∀ totalXp : ℚ,
      (computeInfiniteLevel totalXp 100).1 ≤ 50 ∧
      (100 : ℚ) ≤ (computeInfiniteLevel totalXp 100).2.2 ∧
      (computeInfiniteLevel totalXp 100).2.1 =
        max 0 (min 1 ((levelLoop 50 (max 0 totalXp) 100).2.1 /
          (levelLoop 50 (max 0 totalXp) 100).2.2)) ∧
      0 ≤ (computeInfiniteLevel totalXp 100).2.1 ∧
      (computeInfiniteLevel totalXp 100).2.1 ≤ 1 := by
  have e1 : levelLoop 50 0 100 = (0, 0, 100) := by
    show levelLoop (49 + 1) 0 100 = (0, 0, 100)
    exact levelLoop_succ_neg 49 0 100 (by norm_num)
  have hj1 : ((jsRound ((100 : ℚ) * (6/5)) : ℤ) : ℚ) = 120 := by
    norm_num [jsRound]
  have hj2 : ((jsRound ((120 : ℚ) * (6/5)) : ℤ) : ℚ) = 144 := by
    norm_num [jsRound]
  have e2a : levelLoop 49 0 120 = (0, 0, 120) := by
    show levelLoop (48 + 1) 0 120 = (0, 0, 120)
    exact levelLoop_succ_neg 48 0 120 (by norm_num)
  have e2 : levelLoop 50 100 100 = (1, 0, 120) := by
    show levelLoop (49 + 1) 100 100 = (1, 0, 120)
    rw [levelLoop_succ_pos 49 100 100 (by norm_num),
      show (100 : ℚ) - 100 = 0 by norm_num, hj1, e2a]
  have e3b : levelLoop 48 30 144 = (0, 30, 144) := by
    show levelLoop (47 + 1) 30 144 = (0, 30, 144)
    exact levelLoop_succ_neg 47 30 144 (by norm_num)
  have e3a : levelLoop 49 150 120 = (1, 30, 144) := by
    show levelLoop (48 + 1) 150 120 = (1, 30, 144)
    rw [levelLoop_succ_pos 48 150 120 (by norm_num),
      show (150 : ℚ) - 120 = 30 by norm_num, hj2, e3b]
  have e3 : levelLoop 50 250 100 = (2, 30, 144) := by
    show levelLoop (49 + 1) 250 100 = (2, 30, 144)
    rw [levelLoop_succ_pos 49 250 100 (by norm_num),
      show (250 : ℚ) - 100 = 150 by norm_num, hj1, e3a]
  refine ⟨?_, ?_, ?_, fun totalXp => ?_⟩
  · simp only [computeInfiniteLevel, show max (0 : ℚ) 0 = 0 by norm_num, e1]
    norm_num
  · simp only [computeInfiniteLevel, show max (0 : ℚ) 100 = 100 by norm_num, e2]
    norm_num
  · simp only [computeInfiniteLevel, show max (0 : ℚ) 250 = 250 by norm_num, e3]
    norm_num [min_def, max_def]
  have hreq : (100 : ℚ) ≤ (levelLoop 50 (max 0 totalXp) 100).2.2 :=
    levelLoop_required_ge 50 (max 0 totalXp) 100 (le_refl _)
  have hpos : (0 : ℚ) < (levelLoop 50 (max 0 totalXp) 100).2.2 := by linarith
  refine ⟨?_, ?_, ?_, ?_, ?_⟩
  · exact levelLoop_fst_le 50 _ _
  · simpa [computeInfiniteLevel] using hreq
  · simp [computeInfiniteLevel, if_pos hpos]
  · simp only [computeInfiniteLevel, if_pos hpos]
    exact le_max_left 0 _
  · simp only [computeInfiniteLevel, if_pos hpos]
    exact max_le (by norm_num) (min_le_left 1 _)

/-- The consistency-summing fold stays a plain number and adds exactly the
coerced values, as long as no entry holds NaN. -/
theorem consistency_fold_sum (l : List ReflectionEntry)
    (h : ∀ r ∈ l, r.consistency ≠ .nan) :
    ∀ a : ℚ, l.foldl (fun acc r => jsAdd acc (coerceNum r.consistency)) (.num a)
      = .num (a + (l.map (fun r => consPart r.consistency)).sum) := by
  induction l with
  | nil => intro a; simp
  | cons r t ih =>
    intro a
    have hr : r.consistency ≠ .nan := h r (List.mem_cons_self r t)
    have hstep : jsAdd (.num a) (coerceNum r.consistency)
        = .num (a + consPart r.consistency) := by
      cases hv : r.consistency with
      | num q => simp [jsAdd, coerceNum, consPart]
      | nan => exact absurd hv hr
      | other => simp [jsAdd, coerceNum, consPart]
    rw [List.foldl_cons, hstep, ih (fun x hx => h x (List.mem_cons_of_mem r hx))]
    simp [add_assoc]

/-- computeAverageConsistency is the plain rational mean whenever no entry
holds NaN. -/
theorem computeAverageConsistency_eq_meanQ (l : List ReflectionEntry)
    (h : ∀ r ∈ l, r.consistency ≠ .nan) :
    computeAverageConsistency l = .num (meanQ l) := by
  rw [computeAverageConsistency]
  by_cases hl : l.isEmpty
  · rw [if_pos hl]
    rw [List.isEmpty_iff] at hl
    subst hl
    simp [meanQ]
  · rw [if_neg hl, consistency_fold_sum l h 0, jsDivNat, meanQ, zero_add]

/-- Sum bounds for coerced consistency values that are each a non-number
or a number inside the 0 to 100 range. -/
theorem consPart_sum_bounds (l : List ReflectionEntry)
    (h : ∀ r ∈ l, r.consistency = .other ∨
        ∃ q : ℚ, r.consistency = .num q ∧ 0 ≤ q ∧ q ≤ 100) :
    0 ≤ (l.map (fun r => consPart r.consistency)).sum ∧
      (l.map (fun r => consPart r.consistency)).sum ≤ 100 * l.length := by
  induction l with
  | nil => simp
  | cons r t ih =>
    have hb : 0 ≤ consPart r.consistency ∧ consPart r.consistency ≤ 100 := by
      rcases h r (List.mem_cons_self r t) with h1 | ⟨q, h1, hq0, hq1⟩
      · rw [h1]
        constructor
        · norm_num [consPart]
        · norm_num [consPart]
      · rw [h1]
        exact ⟨hq0, hq1⟩
    have iht := ih (fun x hx => h x (List.mem_cons_of_mem r hx))
    constructor
    · simp only [List.map_cons, List.sum_cons]
      exact add_nonneg hb.1 iht.1
    · simp only [List.map_cons, List.sum_cons, List.length_cons]
      push_cast
      have h2 := iht.2
      push_cast at h2
      linarith [hb.2]

/-- C5 counterexample: the engine does not clamp ratings to the range 0 to
100 and does not treat NaN as 0: a single in-range entry rated 500 yields
an average of 500, and a single NaN-rated entry yields a NaN average. -/
theorem claim_C5_counterexample :
    (computeReflectionStats [] [⟨"r1", 0, .num 500⟩] none none).avgConsistency
      = .num 500 ∧
    ¬ ((500 : ℚ) ≤ 100) ∧
    (computeReflectionStats [] [⟨"r2", 0, .nan⟩] none none).avgConsistency
      = .nan := by
  refine ⟨?_, by norm_num, ?_⟩
  · simp [computeReflectionStats, computeAverageConsistency, isDateInRange,
      jsAdd, coerceNum, jsDivNat]
  · simp [computeReflectionStats, computeAverageConsistency, isDateInRange,
      jsAdd, coerceNum, jsDivNat]

/-- C5 amended: computeAverageConsistency coerces only values whose typeof
is not number to 0; numeric values, NaN included, pass through without any
clamping, so NaN propagates to the average and out-of-range ratings move
the average out of range. The average is guaranteed to be a real number in
the range 0 to 100 exactly under the precondition that every consistency
value is either a non-number or a plain number already inside that range. -/
theorem claim_C5 (byDate : List (Int × List String))
    (reflections : List ReflectionEntry) (fromDate toDate : Option Int)
    (h : ∀ r ∈ reflections, r.consistency = .other ∨
        ∃ q : ℚ, r.consistency = .num q ∧ 0 ≤ q ∧ q ≤ 100) :
    ∃ q : ℚ,
      (computeReflectionStats byDate reflections fromDate toDate).avgConsistency
        = .num q ∧ 0 ≤ q ∧ q ≤ 100 := by
  have havg : (computeReflectionStats byDate reflections fromDate toDate).avgConsistency
      = computeAverageConsistency (reflections.filter
        (fun r => isDateInRange r.date fromDate toDate)) := rfl
  set l := reflections.filter (fun r => isDateInRange r.date fromDate toDate) with hldef
  have hl : ∀ r ∈ l, r.consistency = .other ∨
      ∃ q : ℚ, r.consistency = .num q ∧ 0 ≤ q ∧ q ≤ 100 :=
    fun r hr => h r (List.mem_of_mem_filter hr)
  have hnan : ∀ r ∈ l, r.consistency ≠ .nan := by
    intro r hr hc
    rcases hl r hr with h1 | ⟨q, h1, _, _⟩ <;> rw [hc] at h1 <;> exact JsVal.noConfusion h1
  have hsum := consPart_sum_bounds l hl
  rw [havg, computeAverageConsistency_eq_meanQ l hnan]
  refine ⟨meanQ l, rfl, ?_, ?_⟩
  · rw [meanQ]
    rcases Nat.eq_zero_or_pos l.length with h0 | hpos
    · rw [h0]; simp
    · have : (0 : ℚ) < l.length := by exact_mod_cast hpos
      exact div_nonneg hsum.1 (le_of_lt this)
  · rw [meanQ]
    rcases Nat.eq_zero_or_pos l.length with h0 | hpos
    · rw [h0]; simp
    · have hpos2 : (0 : ℚ) < l.length := by exact_mod_cast hpos
      rw [div_le_iff₀ hpos2]
      calc (l.map (fun r => consPart r.consistency)).sum
          ≤ 100 * l.length := hsum.2
        _ = 100 * l.length := by ring

/-- C4 counterexample: on five in-range entries rated 50, 50, 100, 50, 50
in date order, the code splits older = the first two and newer = the last
three (the NEWER half receives the extra entry), giving an improving trend;
the split the claim describes (older half gets the extra entry) would give
a declining trend. The claim is therefore false at this input. -/
theorem claim_C4_counterexample :
    computeConsistencyTrend
      [⟨"e1", 1, .num 50⟩, ⟨"e2", 2, .num 50⟩, ⟨"e3", 3, .num 100⟩,
        ⟨"e4", 4, .num 50⟩, ⟨"e5", 5, .num 50⟩] none none = .improving ∧
    claimsTrend
      [⟨"e1", 1, .num 50⟩, ⟨"e2", 2, .num 50⟩, ⟨"e3", 3, .num 100⟩,
        ⟨"e4", 4, .num 50⟩, ⟨"e5", 5, .num 50⟩] none none = .declining := by
  constructor
  · norm_num [computeConsistencyTrend, sortedInRange, isDateInRange,
      List.insertionSort, List.orderedInsert, computeAverageConsistency,
      jsAdd, jsSub, jsLt, jsDivNat, coerceNum]
  · norm_num [claimsTrend, sortedInRange, isDateInRange,
      List.insertionSort, List.orderedInsert, computeAverageConsistency,
      jsAdd, jsSub, jsLt, jsDivNat, coerceNum]

/-- Entries of the sorted in-range list come from the input list. -/
theorem mem_sortedInRange {r : ReflectionEntry} {reflections : List ReflectionEntry}
    {fromDate toDate : Option Int}
    (hr : r ∈ sortedInRange reflections fromDate toDate) : r ∈ reflections := by
  rw [sortedInRange, List.mem_insertionSort] at hr
  exact List.mem_of_mem_filter hr

/-- C4 amended: computeReflectionStats returns consistencyTrend =
insufficient_data exactly when fewer than 4 in-range entries exist; for at
least 4 entries sorted chronologically, the split index is floor(n / 2),
so the NEWER (upper) half receives the extra entry when n is odd (not the
older half as the claim states), and the trend is improving when the newer
half mean exceeds the older half mean by more than 5, declining when it is
more than 5 below, and stable otherwise. Stated for entries whose
consistency values are plain numbers, as the data model prescribes. -/
theorem claim_C4 (byDate : List (Int × List String))
    (reflections : List ReflectionEntry) (fromDate toDate : Option Int)
    (h : ∀ r ∈ reflections, ∃ q : ℚ, r.consistency = .num q)
    (s : List ReflectionEntry)
    (hs : s = sortedInRange reflections fromDate toDate)
    (d : ℚ)
    (hd : d = meanQ (s.drop (s.length / 2)) - meanQ (s.take (s.length / 2))) :
    ((computeReflectionStats byDate reflections fromDate toDate).consistencyTrend
        = .insufficient_data ↔ s.length < 4) ∧
    (4 ≤ s.length →
      (s.drop (s.length / 2)).length
          = (s.take (s.length / 2)).length + s.length % 2 ∧
      ((computeReflectionStats byDate reflections fromDate toDate).consistencyTrend
          = .improving ↔ 5 < d) ∧
      ((computeReflectionStats byDate reflections fromDate toDate).consistencyTrend
          = .declining ↔ d < -5) ∧
      ((computeReflectionStats byDate reflections fromDate toDate).consistencyTrend
          = .stable ↔ (-5 ≤ d ∧ d ≤ 5))) := by
  have htrend : (computeReflectionStats byDate reflections fromDate toDate).consistencyTrend
      = computeConsistencyTrend reflections fromDate toDate := rfl
  rw [htrend]
  by_cases hlen : s.length < 4
  · have ht : computeConsistencyTrend reflections fromDate toDate
        = .insufficient_data := by
      simp only [computeConsistencyTrend]
      rw [← hs, if_pos hlen]
    rw [ht]
    exact ⟨iff_of_true rfl hlen, fun hge => absurd hlen (by omega)⟩
  · have hnum : ∀ r ∈ s, ∃ q : ℚ, r.consistency = .num q := by
      intro r hr
      rw [hs] at hr
      exact h r (mem_sortedInRange hr)
    have hnanT : ∀ r ∈ s.take (s.length / 2), r.consistency ≠ .nan := by
      intro r hr hc
      obtain ⟨q, hq⟩ := hnum r (List.take_subset _ _ hr)
      rw [hc] at hq
      exact JsVal.noConfusion hq
    have hnanD : ∀ r ∈ s.drop (s.length / 2), r.consistency ≠ .nan := by
      intro r hr hc
      obtain ⟨q, hq⟩ := hnum r (List.drop_subset _ _ hr)
      rw [hc] at hq
      exact JsVal.noConfusion hq
    have ht : computeConsistencyTrend reflections fromDate toDate
        = (if 5 < d then Trend.improving
            else if d < -5 then Trend.declining else Trend.stable) := by
      simp only [computeConsistencyTrend]
      rw [← hs, if_neg hlen,
        computeAverageConsistency_eq_meanQ _ hnanT,
        computeAverageConsistency_eq_meanQ _ hnanD]
      simp only [jsSub, jsLt, decide_eq_true_eq, ← hd]
    rw [ht]
    refine ⟨?_, fun _ => ⟨?_, ?_, ?_, ?_⟩⟩
    · have hne : (if 5 < d then Trend.improving
          else if d < -5 then Trend.declining else Trend.stable)
          ≠ .insufficient_data := by
        split_ifs <;> simp
      exact iff_of_false hne hlen
    · rw [List.length_take, List.length_drop,
        Nat.min_eq_left (Nat.div_le_self s.length 2)]
      omega
    · by_cases h1 : 5 < d
      · rw [if_pos h1]
        exact iff_of_true rfl h1
      · rw [if_neg h1]
        have hne : (if d < -5 then Trend.declining else Trend.stable)
            ≠ .improving := by split_ifs <;> simp
        exact iff_of_false hne h1
    · by_cases h1 : 5 < d
      · rw [if_pos h1]
        exact iff_of_false (by simp) (by intro hc; linarith)
      · rw [if_neg h1]
        by_cases h2 : d < -5
        · rw [if_pos h2]
          exact iff_of_true rfl h2
        · rw [if_neg h2]
          exact iff_of_false (by simp) h2
    · by_cases h1 : 5 < d
      · rw [if_pos h1]
        exact iff_of_false (by simp) (fun hc => by linarith [hc.2])
      · rw [if_neg h1]
        by_cases h2 : d < -5
        · rw [if_pos h2]
          exact iff_of_false (by simp) (fun hc => by linarith [hc.1])
        · rw [if_neg h2]
          exact iff_of_true rfl
            ⟨by linarith [not_lt.mp h2], by linarith [not_lt.mp h1]⟩

/-- Witness for the amended C4 at a concrete input. -/
theorem claim_C4_witness :
    (computeReflectionStats []
        [⟨"w1", 1, .num 0⟩, ⟨"w2", 2, .num 0⟩,
          ⟨"w3", 3, .num 100⟩, ⟨"w4", 4, .num 100⟩] none none).consistencyTrend
        = .insufficient_data
      ↔ (sortedInRange
        [⟨"w1", 1, .num 0⟩, ⟨"w2", 2, .num 0⟩,
          ⟨"w3", 3, .num 100⟩, ⟨"w4", 4, .num 100⟩] none none).length < 4 :=
  (claim_C4 []
    [⟨"w1", 1, .num 0⟩, ⟨"w2", 2, .num 0⟩,
      ⟨"w3", 3, .num 100⟩, ⟨"w4", 4, .num 100⟩] none none
    (fun r hr => by fin_cases hr <;> exact ⟨_, rfl⟩)
    _ rfl _ rfl).1

/-- Witness for the amended C5 at a concrete input. -/
theorem claim_C5_witness :
    ∃ q : ℚ,
      (computeReflectionStats [] [⟨"r1", 0, .num 50⟩] none none).avgConsistency
        = .num q ∧ 0 ≤ q ∧ q ≤ 100 :=
  claim_C5 [] [⟨"r1", 0, .num 50⟩] none none
    (fun r hr => by
      rw [List.mem_singleton] at hr
      subst hr
      exact Or.inr ⟨50, rfl, by norm_num, by norm_num⟩)


/-- When the target precedes the start of every phase in the list (and
phases are well formed), the scan returns its fallback unchanged. -/
theorem findPhase_all_future (target : Int) :
    ∀ (l : List Phase) (cur : Option Phase),
      (∀ p ∈ l, target < p.start_date) →
      (∀ p ∈ l, p.start_date ≤ p.end_date) →
      findPhase target cur l = cur := by
  intro l
  induction l with
  | nil => intro cur _ _; rfl
  | cons p rest ih =>
    intro cur hfut hwf
    have h1 : target < p.start_date := hfut p (List.mem_cons_self p rest)
    have h2 : p.start_date ≤ p.end_date := hwf p (List.mem_cons_self p rest)
    rw [findPhase, if_neg (by intro hc; exact absurd hc.1 (by omega)),
      if_neg (by omega)]
    exact ih cur (fun q hq => hfut q (List.mem_cons_of_mem p hq))
      (fun q hq => hwf q (List.mem_cons_of_mem p hq))

/-- When the target is after the end of every phase in the list, the scan
returns the last phase of the list (or its fallback when empty). -/
theorem findPhase_all_past (target : Int) :
    ∀ (l : List Phase) (cur : Option Phase),
      (∀ p ∈ l, p.end_date < target) →
      findPhase target cur l = (if l.isEmpty then cur else l.getLast?) := by
  intro l
  induction l with
  | nil => intro cur _; rfl
  | cons p rest ih =>
    intro cur hpast
    have h1 : p.end_date < target := hpast p (List.mem_cons_self p rest)
    rw [findPhase, if_neg (by intro hc; exact absurd hc.2 (by omega)), if_pos h1]
    rw [ih (some p) (fun q hq => hpast q (List.mem_cons_of_mem p hq))]
    cases rest with
    | nil => rfl
    | cons q t => simp [List.getLast?_cons_cons]

/-- When some phase of the list contains the target, the scan returns the
first containing phase, whatever the fallback. -/
theorem findPhase_finds (target : Int) :
    ∀ (l : List Phase) (cur : Option Phase),
      (∃ p ∈ l, p.start_date ≤ target ∧ target ≤ p.end_date) →
      findPhase target cur l
        = l.find? (fun p => decide (p.start_date ≤ target) &&
            decide (target ≤ p.end_date)) := by
  intro l
  induction l with
  | nil => intro cur hex; exact absurd hex (by simp)
  | cons p rest ih =>
    intro cur hex
    by_cases hc : p.start_date ≤ target ∧ target ≤ p.end_date
    · rw [findPhase, if_pos hc, List.find?_cons_of_pos]
      simp [hc.1, hc.2]
    · have hrest : ∃ q ∈ rest, q.start_date ≤ target ∧ target ≤ q.end_date := by
        obtain ⟨q, hq, hq2⟩ := hex
        rcases List.mem_cons.mp hq with rfl | hq3
        · exact absurd hq2 hc
        · exact ⟨q, hq3, hq2⟩
      rw [findPhase, if_neg hc, List.find?_cons_of_neg]
      · by_cases h2 : p.end_date < target
        · rw [if_pos h2]; exact ih (some p) hrest
        · rw [if_neg h2]; exact ih cur hrest
      · simp only [Bool.and_eq_true, decide_eq_true_eq]
        intro hcon
        exact hc ⟨hcon.1, hcon.2⟩

/-- C8 counterexample: with the overlapping phases A (days 0 to 10) and B
(days 2 to 3) and a target day 20 after both ends, getCurrentPhase returns
B, the last phase in start-date order, although A is the latest-ENDING
phase; the claim that the lookup returns the latest-ending phase is false
at this input. -/
theorem claim_C8_counterexample :
    getCurrentPhase [⟨"A", 0, 10⟩, ⟨"B", 2, 3⟩] 20 = some ⟨"B", 2, 3⟩ ∧
    (⟨"A", 0, 10⟩ : Phase) ∈ ([⟨"A", 0, 10⟩, ⟨"B", 2, 3⟩] : List Phase) ∧
    (⟨"B", 2, 3⟩ : Phase).end_date < (⟨"A", 0, 10⟩ : Phase).end_date := by
  refine ⟨?_, by simp, by norm_num⟩
  rw [getCurrentPhase]
  norm_num [sortPhases, findPhase, List.insertionSort, List.orderedInsert]

/-- C8 amended: for every phase list whose phases satisfy start_date less
than or equal to end_date, and every target date: if the target precedes
every start the lookup returns none; if the target is after every end it
returns the LAST PHASE IN START-DATE ORDER (the latest-starting phase,
which equals the latest-ending one only when phases do not overlap); and
when some phase contains the target it returns the first containing phase
in start-date order. -/
theorem claim_C8 (phases : List Phase) (target : Int)
    (hwf : ∀ p ∈ phases, p.start_date ≤ p.end_date) :
    ((∀ p ∈ phases, target < p.start_date) →
      getCurrentPhase phases target = none) ∧
    ((∀ p ∈ phases, p.end_date < target) →
      getCurrentPhase phases target = (sortPhases phases).getLast?) ∧
    ((∃ p ∈ phases, p.start_date ≤ target ∧ target ≤ p.end_date) →
      getCurrentPhase phases target
        = (sortPhases phases).find? (fun p => decide (p.start_date ≤ target) &&
            decide (target ≤ p.end_date))) := by
  have hmem : ∀ p : Phase, p ∈ sortPhases phases ↔ p ∈ phases := by
    intro p
    exact List.mem_insertionSort _
  refine ⟨?_, ?_, ?_⟩
  · intro hfut
    rw [getCurrentPhase]
    by_cases he : phases.isEmpty
    · rw [if_pos he]
    · rw [if_neg he]
      exact findPhase_all_future target (sortPhases phases) none
        (fun p hp => hfut p ((hmem p).mp hp))
        (fun p hp => hwf p ((hmem p).mp hp))
  · intro hpast
    rw [getCurrentPhase]
    by_cases he : phases.isEmpty
    · rw [if_pos he]
      rw [List.isEmpty_iff] at he
      subst he
      rfl
    · rw [if_neg he]
      rw [findPhase_all_past target (sortPhases phases) none
        (fun p hp => hpast p ((hmem p).mp hp))]
      rw [if_neg (by
        rw [List.isEmpty_iff] at he ⊢
        intro hc
        apply he
        have hlen := List.length_insertionSort
          (fun a b : Phase => a.start_date ≤ b.start_date) phases
        rw [sortPhases] at hc
        rw [hc] at hlen
        exact List.eq_nil_of_length_eq_zero hlen.symm)]
  · intro hex
    rw [getCurrentPhase]
    have he : ¬ phases.isEmpty := by
      obtain ⟨p, hp, _⟩ := hex
      rw [List.isEmpty_iff]
      intro hc
      subst hc
      exact absurd hp (List.not_mem_nil p)
    rw [if_neg he]
    refine findPhase_finds target (sortPhases phases) none ?_
    obtain ⟨p, hp, hp2⟩ := hex
    exact ⟨p, (hmem p).mpr hp, hp2⟩

/-- Witness for the amended C8 at a concrete input. -/
theorem claim_C8_witness :
    getCurrentPhase [⟨"P", 0, 5⟩] 3
      = (sortPhases [⟨"P", 0, 5⟩]).find? (fun p => decide (p.start_date ≤ 3) &&
          decide (3 ≤ p.end_date)) :=
  (claim_C8 [⟨"P", 0, 5⟩] 3
    (fun p hp => by
      rw [List.mem_singleton] at hp
      subst hp
      norm_num)).2.2
    ⟨⟨"P", 0, 5⟩, by simp, by norm_num, by norm_num⟩


/-- Unfolding equation of the backward streak walk. -/
theorem streakBack_eq (s : Finset Int) (d : Int) :
    streakBack s d = if d ∈ s then streakBack s (d - 1) + 1 else 0 := by
  rw [streakBack]
  simp

/-- Unfolding equation of the forward run walk. -/
theorem runFwd_eq (s : Finset Int) (d : Int) :
    runFwd s d = if d ∈ s then runFwd s (d + 1) + 1 else 0 := by
  rw [runFwd]
  simp

/-- The backward walk returns 0 exactly on inactive start days. -/
theorem streakBack_eq_zero_iff (s : Finset Int) (d : Int) :
    streakBack s d = 0 ↔ d ∉ s := by
  rw [streakBack_eq]
  by_cases h : d ∈ s
  · rw [if_pos h]
    simp [h]
  · rw [if_neg h]
    simp [h]

/-- Every day the backward walk counted is active. -/
theorem streakBack_mem (s : Finset Int) :
    ∀ (i : ℕ) (d : Int), i < streakBack s d → (d - i) ∈ s := by
  intro i
  induction i with
  | zero =>
    intro d h
    rw [streakBack_eq] at h
    by_cases hd : d ∈ s
    · simpa using hd
    · rw [if_neg hd] at h
      omega
  | succ k ih =>
    intro d h
    rw [streakBack_eq] at h
    by_cases hd : d ∈ s
    · rw [if_pos hd] at h
      have h2 : k < streakBack s (d - 1) := by omega
      have h3 := ih (d - 1) h2
      have h4 : d - ((k + 1 : ℕ) : Int) = d - 1 - (k : Int) := by push_cast; ring
      rw [h4]
      exact h3
    · rw [if_neg hd] at h
      omega

/-- The day just before the counted run is inactive. -/
theorem streakBack_out (s : Finset Int) :
    ∀ (n : ℕ) (d : Int), streakBack s d = n → (d - n) ∉ s := by
  intro n
  induction n with
  | zero =>
    intro d h
    rw [streakBack_eq_zero_iff] at h
    simpa using h
  | succ k ih =>
    intro d h
    rw [streakBack_eq] at h
    by_cases hd : d ∈ s
    · rw [if_pos hd] at h
      have h2 : streakBack s (d - 1) = k := by omega
      have h3 := ih (d - 1) h2
      have h4 : d - ((k + 1 : ℕ) : Int) = d - 1 - (k : Int) := by push_cast; ring
      rw [h4]
      exact h3
    · rw [if_neg hd] at h
      omega

/-- A day opening a stretch of k active days has a forward run of at
least k. -/
theorem runFwd_ge (s : Finset Int) :
    ∀ (k : ℕ) (d : Int), (∀ i : ℕ, i < k → (d + i) ∈ s) → k ≤ runFwd s d := by
  intro k
  induction k with
  | zero => intro d _; exact Nat.zero_le _
  | succ m ih =>
    intro d h
    have hd : d ∈ s := by simpa using h 0 (Nat.succ_pos m)
    rw [runFwd_eq, if_pos hd]
    have h2 : ∀ i : ℕ, i < m → (d + 1 + i) ∈ s := by
      intro i hi
      have h3 := h (i + 1) (by omega)
      have h4 : d + ((i + 1 : ℕ) : Int) = d + 1 + (i : Int) := by push_cast; ring
      rw [h4] at h3
      exact h3
    exact Nat.succ_le_succ (ih (d + 1) h2)

/-- The best-streak fold never drops below its accumulator. -/
theorem bestFold_ge_init (s : Finset Int) :
    ∀ (dates : List Int) (b : ℕ),
      b ≤ dates.foldl
        (fun best d => if (d - 1) ∈ s then best else max best (runFwd s d)) b := by
  intro dates
  induction dates with
  | nil => intro b; exact le_refl b
  | cons e t ih =>
    intro b
    rw [List.foldl_cons]
    refine le_trans ?_ (ih _)
    by_cases he : (e - 1) ∈ s
    · rw [if_pos he]
    · rw [if_neg he]
      exact le_max_left b _


/-- The best-streak fold dominates the forward run of every scanned date
that opens a run. -/
theorem bestFold_ge_run (s : Finset Int) :
    ∀ (dates : List Int) (b : ℕ) (d : Int), d ∈ dates → (d - 1) ∉ s →
      runFwd s d ≤ dates.foldl
        (fun best x => if (x - 1) ∈ s then best else max best (runFwd s x)) b := by
  intro dates
  induction dates with
  | nil => intro b d hd _; exact absurd hd (List.not_mem_nil d)
  | cons e t ih =>
    intro b d hd hout
    rw [List.foldl_cons]
    rcases List.mem_cons.mp hd with rfl | hdt
    · rw [if_neg hout]
      exact le_trans (le_max_right b _) (bestFold_ge_init s t _)
    · exact ih _ d hdt hout

/-- Membership in the active-date list. -/
theorem mem_activeDates (byDate : List (Int × List String)) (d : Int) :
    d ∈ activeDates byDate ↔ ∃ l, (d, l) ∈ byDate ∧ l ≠ [] := by
  rw [activeDates]
  constructor
  · intro h
    obtain ⟨p, hp, hpd⟩ := List.mem_map.mp h
    obtain ⟨hpmem, hpne⟩ := List.mem_filter.mp hp
    refine ⟨p.2, ?_, ?_⟩
    · rw [← hpd]
      exact hpmem
    · intro hc
      rw [hc] at hpne
      simp at hpne
  · intro ⟨l, hmem, hne⟩
    refine List.mem_map.mpr ⟨(d, l), List.mem_filter.mpr ⟨hmem, ?_⟩, rfl⟩
    simpa using hne

/-- A successful lookup comes from an entry of the list. -/
theorem lookupKey_mem {α β : Type} [DecidableEq α] :
    ∀ (l : List (α × β)) (a : α) (b : β), lookupKey l a = some b → (a, b) ∈ l := by
  intro l
  induction l with
  | nil => intro a b h; exact absurd h (by simp [lookupKey])
  | cons p t ih =>
    intro a b h
    rw [lookupKey] at h
    by_cases hp : p.1 = a
    · rw [if_pos hp] at h
      have : p = (a, b) := by
        obtain ⟨p1, p2⟩ := p
        cases h
        cases hp
        rfl
      rw [← this]
      exact List.mem_cons_self p t
    · rw [if_neg hp] at h
      exact List.mem_cons_of_mem p (ih a b h)

/-- With distinct keys, lookup finds exactly the entry holding the key. -/
theorem lookupKey_of_nodup {α β : Type} [DecidableEq α] :
    ∀ (l : List (α × β)) (a : α) (b : β),
      (l.map Prod.fst).Nodup → (a, b) ∈ l → lookupKey l a = some b := by
  intro l
  induction l with
  | nil => intro a b _ h; exact absurd h (List.not_mem_nil _)
  | cons p t ih =>
    intro a b hnodup hmem
    rw [List.map_cons, List.nodup_cons] at hnodup
    rcases List.mem_cons.mp hmem with rfl | hmt
    · rw [lookupKey, if_pos rfl]
    · rw [lookupKey]
      by_cases hp : p.1 = a
      · exfalso
        apply hnodup.1
        rw [hp]
        exact List.mem_map.mpr ⟨(a, b), hmt, rfl⟩
      · rw [if_neg hp]
        exact ih a b hnodup.2 hmt


/-- C6: computeStreakStats returns currentStreak = 0 exactly when the
completed-card list of the wall-clock date is empty or absent, and always
returns bestStreak at least currentStreak. Stated for well-formed logs
(distinct date keys, as JS objects guarantee). -/
theorem claim_C6 (today : Int) (byDate : List (Int × List String))
    (hnodup : (byDate.map Prod.fst).Nodup) :
    ((computeStreakStats today byDate).currentStreak = 0 ↔
      ((lookupKey byDate today).getD []) = []) ∧
    (computeStreakStats today byDate).currentStreak
      ≤ (computeStreakStats today byDate).bestStreak := by
  by_cases hempty : (activeDates byDate).isEmpty
  · have hcs : computeStreakStats today byDate = ⟨0, 0, none⟩ := by
      simp [computeStreakStats, hempty]
    rw [hcs]
    refine ⟨?_, le_refl 0⟩
    have hget : ((lookupKey byDate today).getD []) = [] := by
      cases hl : lookupKey byDate today with
      | none => simp
      | some l =>
        by_cases hle : l = []
        · simp [hle]
        · exfalso
          have hmem : today ∈ activeDates byDate :=
            (mem_activeDates byDate today).mpr
              ⟨l, lookupKey_mem byDate today l hl, hle⟩
          rw [List.isEmpty_iff] at hempty
          rw [hempty] at hmem
          exact List.not_mem_nil today hmem
    simp [hget]
  · have hcs : computeStreakStats today byDate =
        ⟨streakBack (activeDates byDate).toFinset today,
          bestStreakFold (activeDates byDate).toFinset
            ((activeDates byDate).insertionSort (fun a b => a ≤ b)),
          ((activeDates byDate).insertionSort (fun a b => a ≤ b)).getLast?⟩ := by
      simp [computeStreakStats, hempty]
    rw [hcs]
    constructor
    · show streakBack (activeDates byDate).toFinset today = 0 ↔ _
      rw [streakBack_eq_zero_iff]
      constructor
      · intro hnot
        cases hl : lookupKey byDate today with
        | none => simp
        | some l =>
          by_cases hle : l = []
          · simp [hle]
          · exfalso
            apply hnot
            rw [List.mem_toFinset, mem_activeDates]
            exact ⟨l, lookupKey_mem byDate today l hl, hle⟩
      · intro hgetd hmem
        rw [List.mem_toFinset, mem_activeDates] at hmem
        obtain ⟨l, hmem2, hne⟩ := hmem
        have hlk := lookupKey_of_nodup byDate today l hnodup hmem2
        rw [hlk] at hgetd
        exact hne (by simpa using hgetd)
    · show streakBack (activeDates byDate).toFinset today ≤ _
      set s := (activeDates byDate).toFinset with hsdef
      rcases Nat.eq_zero_or_pos (streakBack s today) with hz | hpos
      · rw [hz]
        exact Nat.zero_le _
      · set k := streakBack s today with hkdef
        have hmem : ∀ i : ℕ, i < k → (today - (i : Int)) ∈ s :=
          fun i hi => streakBack_mem s i today (by omega)
        have hc1 : ((k - 1 : ℕ) : Int) = (k : Int) - 1 := by omega
        have hstart_mem : (today - ((k : Int) - 1)) ∈ s := by
          have := hmem (k - 1) (by omega)
          rw [hc1] at this
          exact this
        have hstart_out : (today - ((k : Int) - 1)) - 1 ∉ s := by
          have hout := streakBack_out s k today hkdef.symm
          have he : today - ((k : Int) - 1) - 1 = today - (k : Int) := by ring
          rw [he]
          exact hout
        have hrun : k ≤ runFwd s (today - ((k : Int) - 1)) := by
          refine runFwd_ge s k _ (fun i hi => ?_)
          have hh : today - ((k : Int) - 1) + (i : Int)
              = today - ((k - 1 - i : ℕ) : Int) := by omega
          rw [hh]
          exact hmem (k - 1 - i) (by omega)
        have hin_sorted : (today - ((k : Int) - 1))
            ∈ (activeDates byDate).insertionSort (fun a b => a ≤ b) := by
          rw [List.mem_insertionSort]
          rw [hsdef, List.mem_toFinset] at hstart_mem
          exact hstart_mem
        calc k ≤ runFwd s (today - ((k : Int) - 1)) := hrun
          _ ≤ bestStreakFold s
              ((activeDates byDate).insertionSort (fun a b => a ≤ b)) :=
            bestFold_ge_run s _ 0 _ hin_sorted hstart_out

/-- Witness for C6 at a concrete input. -/
theorem claim_C6_witness :
    ((computeStreakStats 0 [(0, ["a"])]).currentStreak = 0 ↔
      ((lookupKey [((0 : Int), ["a"])] 0).getD []) = []) ∧
    (computeStreakStats 0 [(0, ["a"])]).currentStreak
      ≤ (computeStreakStats 0 [(0, ["a"])]).bestStreak :=
  claim_C6 0 [(0, ["a"])] (by simp)


/-- C9 counterexample: computeStreakStats reads the wall clock internally
(getTodayIsoDate inside streaks_engine.js), so its result is not a
function of its explicit user argument alone: the same log yields
currentStreak 1 when the wall-clock day is 0 and currentStreak 0 when the
wall-clock day is 5. -/
theorem claim_C9_counterexample :
    (computeStreakStats 0 [(0, ["c"])]).currentStreak = 1 ∧
    (computeStreakStats 5 [(0, ["c"])]).currentStreak = 0 ∧
    computeStreakStats 0 [(0, ["c"])] ≠ computeStreakStats 5 [(0, ["c"])] := by
  have ha : activeDates [((0 : Int), ["c"])] = [0] := rfl
  have h1 : (computeStreakStats 0 [(0, ["c"])]).currentStreak = 1 := by
    simp only [computeStreakStats, ha]
    rw [if_neg (by simp)]
    show streakBack (([0] : List Int).toFinset) 0 = 1
    rw [streakBack_eq, if_pos (by decide), show (0 : Int) - 1 = -1 from by norm_num,
      streakBack_eq, if_neg (by decide)]
  have h2 : (computeStreakStats 5 [(0, ["c"])]).currentStreak = 0 := by
    simp only [computeStreakStats, ha]
    rw [if_neg (by simp)]
    show streakBack (([0] : List Int).toFinset) 5 = 0
    rw [streakBack_eq, if_neg (by decide)]
  refine ⟨h1, h2, fun hc => ?_⟩
  have h3 := congrArg StreakStats.currentStreak hc
  rw [h1, h2] at h3
  exact Nat.one_ne_zero h3

/-- C9 amended: computeStreakStats and applyXpForCompletedCard read the
wall-clock date internally, so their results are not determined by their
explicit arguments alone; they are determined by the explicit arguments
together with the wall-clock date: holding that date fixed,
computeStreakStats depends on the log only through its active-date list,
and applyXpForCompletedCard with options.date omitted behaves exactly as
with options.date set to the wall-clock date. -/
theorem claim_C9 (byDate1 byDate2 : List (Int × List String)) (today : Int)
    (h : activeDates byDate1 = activeDates byDate2) :
    computeStreakStats today byDate1 = computeStreakStats today byDate2 ∧
    ∀ (u : User) (c : Card) (tree : List SkillNode),
      applyXpForCompletedCard today (some u) (some c) tree none
        = applyXpForCompletedCard today (some u) (some c) tree (some today) := by
  constructor
  · simp only [computeStreakStats, h]
  · intro u c tree
    rfl

/-- Witness for the amended C9 at a concrete input. -/
theorem claim_C9_witness :
    computeStreakStats 0 [(0, ["a"]), (1, [])] = computeStreakStats 0 [(0, ["a"])] ∧
    ∀ (u : User) (c : Card) (tree : List SkillNode),
      applyXpForCompletedCard 0 (some u) (some c) tree none
        = applyXpForCompletedCard 0 (some u) (some c) tree (some 0) :=
  claim_C9 [(0, ["a"]), (1, [])] [(0, ["a"])] 0 rfl


/-- C1: the code double-credits XP. The completion marking is idempotent
(completed_cards_by_date is unchanged by the second call), but the XP add
at the end of applyXpForCompletedCard is unconditional: calling the
function a second time with the same card and date adds the gained XP
again (focus goes 10, then 20), so the state after the second call is not
identical to the state after the first. This contradicts the claim and the
stated design intent (re-adding the same id for the same day must be a
no-op, not a double-credit), so the code, not the claim, is at fault. -/
theorem claim_C1_code_bug :
    applyXpForCompletedCard 0
        (some ⟨[], [], [], none, ⟨none⟩⟩)
        (some ⟨"c1", some "focus", 10, [], false⟩) [] (some 0)
      = some ⟨[("focus", 10)], [(0, ["c1"])], [],
          some ⟨0, "c1", "focus", 10, 1, 10, 1⟩, ⟨none⟩⟩ ∧
    applyXpForCompletedCard 0
        (some ⟨[("focus", 10)], [(0, ["c1"])], [],
          some ⟨0, "c1", "focus", 10, 1, 10, 1⟩, ⟨none⟩⟩)
        (some ⟨"c1", some "focus", 10, [], false⟩) [] (some 0)
      = some ⟨[("focus", 20)], [(0, ["c1"])], [],
          some ⟨0, "c1", "focus", 10, 1, 10, 1⟩, ⟨none⟩⟩ ∧
    some (⟨[("focus", 20)], [(0, ["c1"])], [],
        some ⟨0, "c1", "focus", 10, 1, 10, 1⟩, ⟨none⟩⟩ : User)
      ≠ some (⟨[("focus", 10)], [(0, ["c1"])], [],
        some ⟨0, "c1", "focus", 10, 1, 10, 1⟩, ⟨none⟩⟩ : User) := by
  have hcur : (computeStreakStats 0 [((0 : Int), ["c1"])]).currentStreak = 1 := by
    have ha : activeDates [((0 : Int), ["c1"])] = [0] := rfl
    simp only [computeStreakStats, ha]
    rw [if_neg (by simp)]
    show streakBack (([0] : List Int).toFinset) 0 = 1
    rw [streakBack_eq, if_pos (by decide), show (0 : Int) - 1 = -1 from by norm_num,
      streakBack_eq, if_neg (by decide)]
  refine ⟨?_, ?_, ?_⟩
  · simp only [applyXpForCompletedCard]
    norm_num [markCompleted, lookupKey, setKey, bumpXp, unlockCompletedSkills,
      computeXpMultiplier, jsRound, hcur]
  · simp only [applyXpForCompletedCard]
    norm_num [markCompleted, lookupKey, setKey, bumpXp, unlockCompletedSkills,
      computeXpMultiplier, jsRound, hcur]
  · intro hc
    have h2 := congrArg (fun o => (Option.map User.xp_by_domain o).getD []) hc
    simp at h2


/-- Replacing the element at a position and re-attaching the old value in
front is a permutation of attaching the new value in front. -/
theorem set_cons_perm {α : Type} :
    ∀ (t : List α) (k : ℕ) (b a : α),
      t.get? k = some b → (b :: t.set k a).Perm (a :: t) := by
  intro t
  induction t with
  | nil => intro k b a h; exact absurd h (by simp)
  | cons y t ih =>
    intro k b a h
    cases k with
    | zero =>
      have hb : y = b := by simpa using h
      subst hb
      exact List.Perm.swap a y t
    | succ k =>
      have h2 : t.get? k = some b := by simpa using h
      have s1 : (b :: y :: t.set k a).Perm (y :: b :: t.set k a) :=
        List.Perm.swap y b _
      have s2 : (y :: b :: t.set k a).Perm (y :: a :: t) := (ih k b a h2).cons y
      have s3 : (y :: a :: t).Perm (a :: y :: t) := List.Perm.swap a y t
      exact (s1.trans s2).trans s3

/-- Swapping the values at two positions is a permutation. -/
theorem set_set_perm {α : Type} :
    ∀ (l : List α) (i j : ℕ) (a b : α),
      l.get? i = some a → l.get? j = some b → ((l.set i b).set j a).Perm l := by
  intro l
  induction l with
  | nil => intro i j a b hi _; exact absurd hi (by simp)
  | cons x t ih =>
    intro i j a b hi hj
    cases i with
    | zero =>
      have hax : x = a := by simpa using hi
      subst hax
      cases j with
      | zero =>
        simp
      | succ n =>
        have hj2 : t.get? n = some b := by simpa using hj
        show (b :: t.set n x).Perm (x :: t)
        exact set_cons_perm t n b x hj2
    | succ m =>
      have hi2 : t.get? m = some a := by simpa using hi
      cases j with
      | zero =>
        have hbx : x = b := by simpa using hj
        subst hbx
        show (a :: t.set m x).Perm (x :: t)
        exact set_cons_perm t m a x hi2
      | succ n =>
        have hj2 : t.get? n = some b := by simpa using hj
        show (x :: (t.set m b).set n a).Perm (x :: t)
        exact (ih m n a b hi2 hj2).cons x

/-- One swap step of the shuffle is a permutation. -/
theorem listSwap_perm (l : List Card) (i j : ℕ) : (listSwap l i j).Perm l := by
  cases hi : l.get? i with
  | none =>
    rw [listSwap, hi]
  | some a =>
    cases hj : l.get? j with
    | none =>
      rw [listSwap, hi, hj]
    | some b =>
      rw [listSwap, hi, hj]
      exact set_set_perm l i j a b hi hj

/-- The Fisher-Yates loop is a permutation. -/
theorem shuffleGo_perm (r : ℕ → ℕ) :
    ∀ (n : ℕ) (l : List Card), (shuffleGo r n l).Perm l := by
  intro n
  induction n with
  | zero => intro l; exact List.Perm.refl l
  | succ m ih =>
    intro l
    exact (ih _).trans (listSwap_perm l (m + 1) (r (m + 1) % (m + 2)))

/-- shuffle returns a permutation of its input for every draw function. -/
theorem shuffle_perm (r : ℕ → ℕ) (l : List Card) : (shuffle r l).Perm l :=
  shuffleGo_perm r (l.length - 1) l


/-- pickOneFrom either changes nothing (no candidate) or appends exactly
one pool card not yet chosen. -/
theorem pickOneFrom_shape (k : ℕ) (pool chosen : List Card) :
    pickOneFrom k pool chosen = chosen ∨
    ∃ x, x ∈ pool ∧ x ∉ chosen ∧ pickOneFrom k pool chosen = chosen ++ [x] := by
  rw [pickOneFrom]
  by_cases h : (pool.filter (fun c => !(chosen.contains c))).length = 0
  · rw [dif_pos h]
    exact Or.inl rfl
  · rw [dif_neg h]
    have hmem : (pool.filter (fun c => !(chosen.contains c))).get
        ⟨k % (pool.filter (fun c => !(chosen.contains c))).length,
          Nat.mod_lt _ (Nat.pos_of_ne_zero h)⟩
        ∈ pool.filter (fun c => !(chosen.contains c)) :=
      List.get_mem _ _ _
    have hmem2 := List.mem_filter.mp hmem
    refine Or.inr ⟨_, hmem2.1, ?_, rfl⟩
    have h2 := hmem2.2
    simp at h2
    simpa using h2

/-- pickOneFrom keeps distinctness. -/
theorem pickOneFrom_nodup (k : ℕ) (pool chosen : List Card)
    (h : chosen.Nodup) : (pickOneFrom k pool chosen).Nodup := by
  rcases pickOneFrom_shape k pool chosen with he | ⟨x, _, hx, he⟩
  · rw [he]
    exact h
  · rw [he]
    rw [List.nodup_append]
    refine ⟨h, List.nodup_singleton x, fun a ha hb => ?_⟩
    rw [List.mem_singleton] at hb
    subst hb
    exact hx ha

/-- pickOneFrom only draws from the chosen list and the pool. -/
theorem pickOneFrom_subset (k : ℕ) (pool chosen : List Card) :
    ∀ x ∈ pickOneFrom k pool chosen, x ∈ chosen ∨ x ∈ pool := by
  rcases pickOneFrom_shape k pool chosen with he | ⟨y, hy, _, he⟩ <;> rw [he]
  · exact fun x hx => Or.inl hx
  · intro x hx
    rcases List.mem_append.mp hx with hx | hx
    · exact Or.inl hx
    · rw [List.mem_singleton] at hx
      exact Or.inr (hx ▸ hy)

/-- pickOneFrom appends at most one card. -/
theorem pickOneFrom_length (k : ℕ) (pool chosen : List Card) :
    chosen.length ≤ (pickOneFrom k pool chosen).length ∧
    (pickOneFrom k pool chosen).length ≤ chosen.length + 1 := by
  rcases pickOneFrom_shape k pool chosen with he | ⟨y, hy, _, he⟩ <;> rw [he] <;> simp


/-- C2 counterexample: with a requested count of 1 and an enabled pool
holding one osint-tagged card and one academic card, the balanced mixer
fills its reserved bucket slots before looking at the requested count and
returns 2 ids; the claim that the result length never exceeds the
requested count is false at this input. -/
theorem claim_C2_counterexample :
    selectDailyCardIds 0 0 0 (fun _ => 0) none
      [⟨"c1", some "intel", 5, ["osint"], false⟩,
        ⟨"c2", some "academic", 5, [], false⟩] (some 1)
      = ["c1", "c2"] ∧
    resolvedDailyCount none (some 1) = 1 ∧
    ¬ ((2 : ℤ) ≤ 1) := by
  refine ⟨by decide, by rfl, by norm_num⟩


/-- Core facts about the fill stage of the balanced mixer: from a
duplicate-free chosen list of at most three pool cards and a shuffled
remainder, the final list is duplicate-free, drawn from the pool, no
longer than max 3 n, and exactly the pool when the pool is smaller than
the requested count n. -/
theorem mixer_final (pool c3 rem res : List Card) (n : ℤ)
    (hpool : pool.Nodup) (hc3nd : c3.Nodup) (hc3sub : ∀ x ∈ c3, x ∈ pool)
    (hc3len : c3.length ≤ 3)
    (hperm : rem.Perm (pool.filter (fun c => !(c3.contains c))))
    (hres : res = if 0 < (n - (c3.length : ℤ)).toNat
        then c3 ++ rem.take (min (n - (c3.length : ℤ)).toNat rem.length)
        else c3) :
    res.Nodup ∧ (∀ x ∈ res, x ∈ pool) ∧ ((res.length : ℤ) ≤ max 3 n) ∧
    ((pool.length : ℤ) < n → res.length = pool.length) := by
  have hmax3 : (3 : ℤ) ≤ max 3 n := le_max_left 3 n
  have hmaxn : n ≤ max 3 n := le_max_right 3 n
  have hfilter_nd : (pool.filter (fun c => !(c3.contains c))).Nodup :=
    hpool.filter _
  have hrem_nd : rem.Nodup := (hperm.nodup_iff).mpr hfilter_nd
  have hrem_mem : ∀ x, x ∈ rem ↔ (x ∈ pool ∧ x ∉ c3) := by
    intro x
    rw [hperm.mem_iff, List.mem_filter]
    simp
  have hc3_le_pool : c3.length ≤ pool.length :=
    (List.subperm_of_subset hc3nd hc3sub).length_le
  have happ_nd : (c3 ++ rem).Nodup := by
    rw [List.nodup_append]
    exact ⟨hc3nd, hrem_nd, fun a ha hb => ((hrem_mem a).mp hb).2 ha⟩
  have happ_sub : ∀ x ∈ c3 ++ rem, x ∈ pool := by
    intro x hx
    rcases List.mem_append.mp hx with h | h
    · exact hc3sub x h
    · exact ((hrem_mem x).mp h).1
  have happ_le : c3.length + rem.length ≤ pool.length := by
    have h1 := (List.subperm_of_subset happ_nd happ_sub).length_le
    simpa using h1
  have hrem_ge : pool.length ≤ c3.length + rem.length := by
    have hsplit := (List.filter_append_perm
      (fun c => !(c3.contains c)) pool).length_eq
    rw [List.length_append] at hsplit
    have hin_nd : (pool.filter (fun c => !(!(c3.contains c)))).Nodup :=
      hpool.filter _
    have hin_sub : ∀ x ∈ pool.filter (fun c => !(!(c3.contains c))), x ∈ c3 := by
      intro x hx
      have h2 := (List.mem_filter.mp hx).2
      simpa using h2
    have hin_le : (pool.filter (fun c => !(!(c3.contains c)))).length ≤ c3.length :=
      (List.subperm_of_subset hin_nd hin_sub).length_le
    have hrem_len : rem.length = (pool.filter (fun c => !(c3.contains c))).length :=
      hperm.length_eq
    omega
  by_cases hslots : 0 < (n - (c3.length : ℤ)).toNat
  · rw [hres, if_pos hslots]
    have htake_sub : ∀ x ∈ rem.take (min (n - (c3.length : ℤ)).toNat rem.length),
        x ∈ rem := fun x hx => List.take_subset _ _ hx
    refine ⟨?_, ?_, ?_, ?_⟩
    · rw [List.nodup_append]
      refine ⟨hc3nd, hrem_nd.sublist (List.take_sublist _ _), fun a ha hb => ?_⟩
      exact ((hrem_mem a).mp (htake_sub a hb)).2 ha
    · intro x hx
      rcases List.mem_append.mp hx with h | h
      · exact hc3sub x h
      · exact ((hrem_mem x).mp (htake_sub x h)).1
    · rw [List.length_append, List.length_take]
      push_cast
      omega
    · intro hlt
      rw [List.length_append, List.length_take]
      omega
  · rw [hres, if_neg hslots]
    refine ⟨hc3nd, hc3sub, by omega, fun hlt => ?_⟩
    exfalso
    omega


/-- C2 amended: for every random draw, user, card pool and requested
count, the balanced mixer returns ids that are pairwise distinct, of
length at most max 3 n where n is the resolved requested count (the three
reserved bucket slots are filled before the count is consulted, so a
count below 3 can be exceeded, as the counterexample shows; for counts of
at least 3 the count is respected); and whenever the eligible
(non-disabled) pool is smaller than the requested count the result has
exactly the pool's size. Stated for pools of distinct cards with distinct
ids (JS object identity and well-formed catalog data). -/
theorem claim_C2 (k1 k2 k3 : ℕ) (r : ℕ → ℕ) (user : Option User)
    (cards : List Card) (opt : Option ℤ)
    (hnd : cards.Nodup) (hids : (cards.map Card.id).Nodup) :
    (selectDailyCardIds k1 k2 k3 r user cards opt).Nodup ∧
    ((selectDailyCardIds k1 k2 k3 r user cards opt).length : ℤ)
      ≤ max 3 (resolvedDailyCount user opt) ∧
    (((cards.filter (fun c => !c.disabled)).length : ℤ)
        < resolvedDailyCount user opt →
      (selectDailyCardIds k1 k2 k3 r user cards opt).length
        = (cards.filter (fun c => !c.disabled)).length) := by
  have hmax3 : (3 : ℤ) ≤ max 3 (resolvedDailyCount user opt) :=
    le_max_left _ _
  by_cases hce : cards.isEmpty = true
  · rw [List.isEmpty_iff] at hce
    subst hce
    refine ⟨by simp [selectDailyCardIds], by simp [selectDailyCardIds],
      fun _ => by simp [selectDailyCardIds]⟩
  · by_cases hpe : (cards.filter (fun c => !c.disabled)).isEmpty = true
    · have hsel : selectDailyCardIds k1 k2 k3 r user cards opt = [] := by
        simp only [selectDailyCardIds]
        rw [if_neg hce, if_pos hpe]
      rw [List.isEmpty_iff] at hpe
      rw [hsel, hpe]
      exact ⟨List.nodup_nil, by simp, fun _ => rfl⟩
    · have hsel : selectDailyCardIds k1 k2 k3 r user cards opt
          = (if 0 < ((resolvedDailyCount user opt)
                - ((pickOneFrom k3 ((cards.filter (fun c => !c.disabled)).filter
                      (fun c => c.domain = some "physical"))
                    (pickOneFrom k2 ((cards.filter (fun c => !c.disabled)).filter
                      (fun c => c.domain = some "academic"))
                    (pickOneFrom k1 ((cards.filter (fun c => !c.disabled)).filter
                      (fun c => includesTag c "osint")) []))).length : ℤ)).toNat
            then (pickOneFrom k3 ((cards.filter (fun c => !c.disabled)).filter
                      (fun c => c.domain = some "physical"))
                    (pickOneFrom k2 ((cards.filter (fun c => !c.disabled)).filter
                      (fun c => c.domain = some "academic"))
                    (pickOneFrom k1 ((cards.filter (fun c => !c.disabled)).filter
                      (fun c => includesTag c "osint")) [])))
                ++ (shuffle r ((cards.filter (fun c => !c.disabled)).filter
                    (fun c => !((pickOneFrom k3 ((cards.filter (fun c => !c.disabled)).filter
                      (fun c => c.domain = some "physical"))
                    (pickOneFrom k2 ((cards.filter (fun c => !c.disabled)).filter
                      (fun c => c.domain = some "academic"))
                    (pickOneFrom k1 ((cards.filter (fun c => !c.disabled)).filter
                      (fun c => includesTag c "osint")) []))).contains c)))).take
                  (min ((resolvedDailyCount user opt)
                      - ((pickOneFrom k3 ((cards.filter (fun c => !c.disabled)).filter
                          (fun c => c.domain = some "physical"))
                        (pickOneFrom k2 ((cards.filter (fun c => !c.disabled)).filter
                          (fun c => c.domain = some "academic"))
                        (pickOneFrom k1 ((cards.filter (fun c => !c.disabled)).filter
                          (fun c => includesTag c "osint")) []))).length : ℤ)).toNat
                    (shuffle r ((cards.filter (fun c => !c.disabled)).filter
                    (fun c => !((pickOneFrom k3 ((cards.filter (fun c => !c.disabled)).filter
                      (fun c => c.domain = some "physical"))
                    (pickOneFrom k2 ((cards.filter (fun c => !c.disabled)).filter
                      (fun c => c.domain = some "academic"))
                    (pickOneFrom k1 ((cards.filter (fun c => !c.disabled)).filter
                      (fun c => includesTag c "osint")) []))).contains c)))).length)
            else (pickOneFrom k3 ((cards.filter (fun c => !c.disabled)).filter
                      (fun c => c.domain = some "physical"))
                    (pickOneFrom k2 ((cards.filter (fun c => !c.disabled)).filter
                      (fun c => c.domain = some "academic"))
                    (pickOneFrom k1 ((cards.filter (fun c => !c.disabled)).filter
                      (fun c => includesTag c "osint")) [])))).map (fun c => c.id) := by
        simp only [selectDailyCardIds]
        rw [if_neg hce, if_neg hpe]
      set pool := cards.filter (fun c => !c.disabled) with hpooldef
      set c1 := pickOneFrom k1 (pool.filter (fun c => includesTag c "osint")) []
        with hc1def
      set c2 := pickOneFrom k2 (pool.filter (fun c => c.domain = some "academic")) c1
        with hc2def
      set c3 := pickOneFrom k3 (pool.filter (fun c => c.domain = some "physical")) c2
        with hc3def
      set n := resolvedDailyCount user opt with hndef
      set rem := shuffle r (pool.filter (fun c => !(c3.contains c))) with hremdef
      have hpoolnd : pool.Nodup := hnd.filter _
      have hpoolsub : ∀ x ∈ pool, x ∈ cards :=
        fun x hx => List.mem_of_mem_filter hx
      have hc1nd : c1.Nodup := pickOneFrom_nodup _ _ _ List.nodup_nil
      have hc2nd : c2.Nodup := pickOneFrom_nodup _ _ _ hc1nd
      have hc3nd : c3.Nodup := pickOneFrom_nodup _ _ _ hc2nd
      have hc1sub : ∀ x ∈ c1, x ∈ pool := by
        intro x hx
        rcases pickOneFrom_subset _ _ _ x hx with h | h
        · exact absurd h (List.not_mem_nil x)
        · exact List.mem_of_mem_filter h
      have hc2sub : ∀ x ∈ c2, x ∈ pool := by
        intro x hx
        rcases pickOneFrom_subset _ _ _ x hx with h | h
        · exact hc1sub x h
        · exact List.mem_of_mem_filter h
      have hc3sub : ∀ x ∈ c3, x ∈ pool := by
        intro x hx
        rcases pickOneFrom_subset _ _ _ x hx with h | h
        · exact hc2sub x h
        · exact List.mem_of_mem_filter h
      have hc1len : c1.length ≤ 1 := by
        have h1 := (pickOneFrom_length k1
          (pool.filter (fun c => includesTag c "osint")) []).2
        simpa using h1
      have hc2len : c2.length ≤ 2 := by
        have h1 := (pickOneFrom_length k2
          (pool.filter (fun c => c.domain = some "academic")) c1).2
        rw [← hc2def] at h1
        omega
      have hc3len : c3.length ≤ 3 := by
        have h1 := (pickOneFrom_length k3
          (pool.filter (fun c => c.domain = some "physical")) c2).2
        rw [← hc3def] at h1
        omega
      have hperm : rem.Perm (pool.filter (fun c => !(c3.contains c))) :=
        shuffle_perm r _
      have hfin := mixer_final pool c3 rem
        (if 0 < (n - (c3.length : ℤ)).toNat
          then c3 ++ rem.take (min (n - (c3.length : ℤ)).toNat rem.length)
          else c3) n hpoolnd hc3nd hc3sub hc3len hperm rfl
      rw [hsel]
      refine ⟨?_, ?_, ?_⟩
      · refine List.Nodup.map_on ?_ hfin.1
        intro x hx y hy hxy
        exact List.inj_on_of_nodup_map hids (hpoolsub x (hfin.2.1 x hx))
          (hpoolsub y (hfin.2.1 y hy)) hxy
      · rw [List.length_map]
        exact hfin.2.2.1
      · intro hlt
        rw [List.length_map]
        exact hfin.2.2.2 hlt


/-- Witness for the amended C2 at a concrete input. -/
theorem claim_C2_witness :
    (selectDailyCardIds 0 0 0 (fun _ => 0) none
      [⟨"w1", some "academic", 5, [], false⟩] (some 2)).Nodup ∧
    ((selectDailyCardIds 0 0 0 (fun _ => 0) none
        [⟨"w1", some "academic", 5, [], false⟩] (some 2)).length : ℤ)
      ≤ max 3 (resolvedDailyCount none (some 2)) ∧
    ((([(⟨"w1", some "academic", 5, [], false⟩ : Card)].filter
          (fun c => !c.disabled)).length : ℤ) < resolvedDailyCount none (some 2) →
      (selectDailyCardIds 0 0 0 (fun _ => 0) none
          [⟨"w1", some "academic", 5, [], false⟩] (some 2)).length
        = ([(⟨"w1", some "academic", 5, [], false⟩ : Card)].filter
            (fun c => !c.disabled)).length) :=
  claim_C2 0 0 0 (fun _ => 0) none [⟨"w1", some "academic", 5, [], false⟩]
    (some 2) (by simp) (by simp)

end PaperWeight
